import Mathlib

/-!
# Verification of `garray.SortedStringArray` (g/container/garray/garray_sorted_string.go)

A shallow embedding of the always-sorted string-sequence container and proofs
about its operations.

Modelling conventions:

* The element type is a parameter `α` with a `LinearOrder`; the container in the
  source stores `string` values and its default comparator is `strings.Compare`,
  i.e. exactly the lexicographic linear order on strings, so `α := String` with
  its lexicographic order instance is the intended instantiation (UTF-8 byte
  order and code-point order agree).  `compareFunc` mirrors the -1/0/1 contract
  of `strings.Compare`.
* A Go slice of strings is modelled as a `List α`.  Go's `sort.Strings` sorts
  ascending by the default comparator; over a linear order the sorted
  permutation of a list is unique, so any correct sort models it; we use
  `List.insertionSort`.
* The struct fields: `mu` (an rwmutex) is modelled by the boolean it is
  constructed from.  `rwmutex.New(unsafe)` and `IsSafe` are not under the
  sources provided; per the constructor's documentation ("The param unsafe used
  to specify whether using array with un-concurrent-safety, which is false in
  default, means concurrent-safe in default") the mutex is concurrent-safe
  exactly when the `unsafe` argument is `false`, so we keep `safe = !unsafe`.
  Locking itself has no effect on the sequential contents and is dropped.
  The `compareFunc` field is always the default comparator (nothing in the file
  ever replaces it), so it is not stored.
* Indexing `a.array[i]` is modelled with `List.getD _ _ default`; every use in
  reachable states is proved in-bounds, and code paths where the Go program
  would panic (index out of range, `make` with negative size, `chunk` size < 1)
  return `none` in an `Option` result.
* `for` loops become recursive functions on the loop state, with the same
  guards, updates and exits as the source.
-/

section Model

variable {α : Type} [LinearOrder α] [Inhabited α]

/-- The default comparator: `strings.Compare(v1, v2)`, returning -1 / 0 / 1
according to the order of `v1` and `v2`. -/
def compareFunc (v1 v2 : α) : Int :=
  if v1 < v2 then -1 else if v2 < v1 then 1 else 0

/-- Go's `sort.Strings` (ascending in-place sort by the default order). -/
def sortList (l : List α) : List α :=
  List.insertionSort (· ≤ ·) l

/-- The `SortedStringArray` struct.  `safe` is the value of `mu.IsSafe()`. -/
structure SortedStringArray (α : Type) where
  safe : Bool
  array : List α
  unique : Bool
deriving DecidableEq, Repr

/-- `NewSortedStringArraySize(cap, unsafe...)`.  The capacity hint only affects
preallocation, never the contents, so it is ignored beyond being received. -/
def NewSortedStringArraySize (cap : Nat) (unsafeFlag : Bool) : SortedStringArray α :=
  { safe := !unsafeFlag, array := [], unique := false }

/-- `NewSortedStringArray(unsafe...)`. -/
def NewSortedStringArray (unsafeFlag : Bool) : SortedStringArray α :=
  NewSortedStringArraySize 0 unsafeFlag

/-- `NewSortedStringArrayFrom(array, unsafe...)`: takes the given slice and
sorts it in place. -/
def NewSortedStringArrayFrom (arr : List α) (unsafeFlag : Bool) : SortedStringArray α :=
  { (NewSortedStringArraySize 0 unsafeFlag : SortedStringArray α) with array := sortList arr }

/-- `a.mu.IsSafe()`. -/
def IsSafe (a : SortedStringArray α) : Bool :=
  a.safe

/-- The `for min <= max` loop of `binSearch`, carrying the loop state
`(min, max, mid, cmp)`.  Each iteration probes `mid = (min+max)/2` and narrows
one bound, or returns `(mid, cmp)` on an exact match; on exit the last probed
`(mid, cmp)` is returned. -/
def binSearchLoop (arr : List α) (value : α) (mn mx mid cmp : Int) : Int × Int :=
  if h : mn ≤ mx then
    let mid2 := (mn + mx) / 2
    let c := compareFunc value (arr.getD mid2.toNat default)
    if c < 0 then binSearchLoop arr value mn (mid2 - 1) mid2 c
    else if c > 0 then binSearchLoop arr value (mid2 + 1) mx mid2 c
    else (mid2, c)
  else (mid, cmp)
termination_by (mx + 1 - mn).toNat
decreasing_by
  · omega
  · omega

/-- `binSearch(value, lock)`: returns the sentinel `(-1, -2)` on an empty
array, otherwise runs the bounded binary-search loop over `[0, len-1]`.
The `lock` parameter only takes the read lock and is dropped. -/
def binSearch (arr : List α) (value : α) : Int × Int :=
  if arr.length = 0 then (-1, -2)
  else binSearchLoop arr value 0 ((arr.length : Int) - 1) 0 (-2)

/-- `Search(value)`: `binSearch` with the read lock taken. -/
def Search (a : SortedStringArray α) (value : α) : Int × Int :=
  binSearch a.array value

/-- `Contains(value)`. -/
def Contains (a : SortedStringArray α) (value : α) : Bool :=
  (Search a value).2 = 0

/-- One iteration of `Add`'s `for _, value := range values` body: binary-search
the value, skip it when `unique` is set and an exact match was found, append
when the search returned the empty sentinel, otherwise insert at the reported
index (shifted one right when the last comparison was positive). -/
def addOne (uniq : Bool) (arr : List α) (value : α) : List α :=
  let r := binSearch arr value
  if uniq && r.2 == 0 then arr
  else if r.1 < 0 then arr ++ [value]
  else
    let index := if r.2 > 0 then r.1 + 1 else r.1
    arr.take index.toNat ++ value :: arr.drop index.toNat

/-- The whole `Add` loop over the variadic `values`. -/
def addAll (uniq : Bool) (arr : List α) (values : List α) : List α :=
  values.foldl (addOne uniq) arr

/-- `Add(values...)`.  (The early return for zero values is the identity of the
fold.) -/
def SortedStringArray.Add (a : SortedStringArray α) (values : List α) : SortedStringArray α :=
  { a with array := addAll a.unique a.array values }

/-- The `for` loop of `Unique()`: stop when `i == len(array)-1` (an `Int`
comparison: on an empty array `len-1` is `-1` and the guard never fires);
otherwise compare the items at `i` and `i+1` and either splice the duplicate
out or advance `i`.  Reading past the end (the empty-array case) is a Go
index-out-of-range panic, modelled as `none`. -/
def uniqueLoop (arr : List α) (i : Nat) : Option (List α) :=
  if (i : Int) = (arr.length : Int) - 1 then some arr
  else if h : i + 1 < arr.length then
    if compareFunc (arr.getD i default) (arr.getD (i + 1) default) = 0 then
      uniqueLoop (arr.take (i + 1) ++ arr.drop (i + 2)) i
    else uniqueLoop arr (i + 1)
  else none
termination_by arr.length - i
decreasing_by
  · simp only [List.length_append, List.length_take, List.length_drop]
    omega
  · omega

/-- `Unique()`: deduplicate adjacent comparator-equal items in place. -/
def SortedStringArray.Unique (a : SortedStringArray α) : Option (SortedStringArray α) :=
  (uniqueLoop a.array 0).map (fun l => { a with array := l })

/-- `SetUnique(unique)`: flip the flag, and run `Unique()` when transitioning
it from false to true. -/
def SetUnique (a : SortedStringArray α) (u : Bool) : Option (SortedStringArray α) :=
  if u && (a.unique != u) then SortedStringArray.Unique { a with unique := u }
  else some { a with unique := u }

/-- `Clone()`: copy the backing array under the read lock into fresh storage
and build a new instance from it, passing `!a.mu.IsSafe()` as the constructor's
`unsafe` argument. -/
def Clone (a : SortedStringArray α) : SortedStringArray α :=
  NewSortedStringArrayFrom a.array (!(IsSafe a))

/-- `Merge(array)`: append the other instance's items and re-sort.  When the
argument is the same instance the source skips the second lock and appends the
array to itself; the contents are the same either way. -/
def Merge (a other : SortedStringArray α) : SortedStringArray α :=
  { a with array := sortList (a.array ++ other.array) }

/-- The chunk-collecting loop of `Chunk`: runs `chunks` times; iteration `i`
emits the slice `array[i*size : min((i+1)*size, len)]`
(`(take (min ..)).drop (i*size)`). -/
def chunkLoop (arr : List α) (size : Nat) : Nat → Nat → List (List α)
  | 0, _ => []
  | chunks + 1, i =>
      (arr.take (min ((i + 1) * size) arr.length)).drop (i * size) ::
        chunkLoop arr size chunks (i + 1)

/-- `Chunk(size)`: panics (`none`) when `size < 1`, otherwise emits
`ceil(len/size)` consecutive slices.  The chunk count
`int(math.Ceil(float64(length) / float64(size)))` is modelled by the exact
ceiling division `(length + size - 1) / size` (float64 is exact on every
reachable slice length). -/
def Chunk (a : SortedStringArray α) (size : Int) : Option (List (List α)) :=
  if size < 1 then none
  else some (chunkLoop a.array size.toNat
    ((a.array.length + size.toNat - 1) / size.toNat) 0)

/-- `SubSlice(offset, size)`: nil (empty) when `offset` exceeds the length;
otherwise `size` is clamped to `len-offset` when `offset+size` overruns.  In
safe mode the result is a fresh copy of `array[offset : offset+size]`; in
unsafe mode the source returns the aliased tail `array[offset:]` as-is.  The
Go panics (slicing with a negative offset; `make` with a negative size, which
only the safe branch performs) are modelled as `none`. -/
def SubSlice (a : SortedStringArray α) (offset size : Int) : Option (List α) :=
  if offset > (a.array.length : Int) then some []
  else
    let size2 :=
      if offset + size > (a.array.length : Int) then (a.array.length : Int) - offset
      else size
    if a.safe then
      if 0 ≤ offset ∧ 0 ≤ size2 then some ((a.array.drop offset.toNat).take size2.toNat)
      else none
    else
      if 0 ≤ offset then some (a.array.drop offset.toNat) else none

/-- The `for i, v := range perm` loop of `Rand`: write `array[v]` into `n[i]`
and stop after the write when `i == size-1`.  Writing `n[i]` out of range is a
Go index-out-of-range panic, modelled as `none`. -/
def randLoop (arr : List α) (perm : List Nat) (n : List α) (i : Nat) (size : Int) :
    Option (List α) :=
  match perm with
  | [] => some n
  | v :: rest =>
    if _hv : v < arr.length then
      if hi : i < n.length then
        let n2 := n.set i (arr.getD v default)
        if (i : Int) = size - 1 then some n2
        else randLoop arr rest n2 (i + 1) size
      else none
    else none

/-- `Rand(size)`: clamp `size` to the length, allocate `make([]string, size)`
(a panic, `none`, when `size` is negative) and fill it by walking a random
permutation of the indices.  The permutation produced by `grand.Perm(len)` is
passed in as the `perm` argument; callers quantify over all permutations of
`range len`. -/
def SortedStringArray.Rand (a : SortedStringArray α) (perm : List Nat) (size : Int) :
    Option (List α) :=
  let size2 := if size > (a.array.length : Int) then (a.array.length : Int) else size
  if 0 ≤ size2 then randLoop a.array perm (List.replicate size2.toNat default) 0 size2
  else none

/-- `Remove(index)` at the array level: the boundary branches re-slice, the
interior branch splices; every branch reads `array[index]` first, so an
out-of-range index is a panic (`none`). -/
def removeArr (arr : List α) (index : Int) : Option (List α) :=
  if index = 0 then
    if 0 < arr.length then some (arr.drop 1) else none
  else if index = (arr.length : Int) - 1 then
    if 0 ≤ index ∧ index < (arr.length : Int) then some (arr.take index.toNat) else none
  else
    if 0 ≤ index ∧ index < (arr.length : Int) then
      some (arr.take index.toNat ++ arr.drop (index.toNat + 1))
    else none

/-- What `binSearch` guarantees about its result `(index, cmp)` on a sorted
nonempty array: the index is in range, `cmp` is the comparison at that index,
and when no exact match was found the final probe separates the array into a
strictly-smaller prefix and a strictly-larger suffix. -/
def searchPost (arr : List α) (value : α) (p : Int × Int) : Prop :=
  0 ≤ p.1 ∧ p.1 < arr.length ∧ p.2 = compareFunc value (arr.getD p.1.toNat default) ∧
  (p.2 < 0 →
    (∀ i : Nat, (i : Int) < p.1 → arr.getD i default < value) ∧
    (∀ i : Nat, p.1 ≤ (i : Int) → i < arr.length → value < arr.getD i default)) ∧
  (0 < p.2 →
    (∀ i : Nat, (i : Int) ≤ p.1 → arr.getD i default < value) ∧
    (∀ i : Nat, p.1 < (i : Int) → i < arr.length → value < arr.getD i default))

/-- Invariant I1 (sortedness): every adjacent pair compares `≤ 0` under the
comparator. -/
def I1 (l : List α) : Prop :=
  List.Chain' (fun x y => compareFunc x y ≤ 0) l

/-- Invariant I2 (uniqueness): no adjacent pair compares equal. -/
def I2 (l : List α) : Prop :=
  List.Chain' (fun x y => compareFunc x y ≠ 0) l

end Model

section HeapModel

/-!
To talk about aliasing between instances (claim C10) the backing arrays live
in an allocation store: a `Store` is the list of allocated backing arrays, an
instance holds the index (`cell`) of its allocation, and two instances alias
exactly when they hold the same cell.  `Clone` allocates (`make` + `copy`):
the clone's cell is fresh.  Mutating operations rewrite only their own cell.
-/

variable {α : Type} [LinearOrder α] [Inhabited α]

/-- An instance as a reference into the store. -/
structure SSARef where
  safe : Bool
  unique : Bool
  cell : Nat
deriving DecidableEq, Repr

/-- The allocation store: one backing array per allocation. -/
abbrev Store (α : Type) : Type :=
  List (List α)

/-- Dereference a cell. -/
def storeGet (s : Store α) (c : Nat) : List α :=
  List.getD s c []

/-- In-place mutation of one instance's backing array. -/
def mutateM (s : Store α) (c : Nat) (f : List α → List α) : Store α :=
  List.set s c (f (storeGet s c))

/-- `Clone()` in the store model: `make([]string, len)` + `copy` allocate a
fresh cell holding a copy of the source's items, and
`NewSortedStringArrayFrom` sorts that fresh allocation in place and wraps it
(with `!a.mu.IsSafe()` as the `unsafe` argument, hence the same `safe` bit,
and a fresh default `unique` flag). -/
def CloneM (s : Store α) (a : SSARef) : Store α × SSARef :=
  (s ++ [sortList (storeGet s a.cell)],
   { safe := !(!a.safe), unique := false, cell := s.length })

/-- `Add(values...)` in the store model. -/
def AddM (s : Store α) (a : SSARef) (values : List α) : Store α :=
  mutateM s a.cell (fun arr => addAll a.unique arr values)

/-- `SetArray(array)` in the store model: replace the contents, re-sort. -/
def SetArrayM (s : Store α) (a : SSARef) (values : List α) : Store α :=
  mutateM s a.cell (fun _ => sortList values)

/-- `Clear()` in the store model: re-point to empty storage when nonempty. -/
def ClearM (s : Store α) (a : SSARef) : Store α :=
  mutateM s a.cell (fun arr => if 0 < arr.length then [] else arr)

/-- `Remove(index)` in the store model; `none` on the out-of-range panic. -/
def RemoveM (s : Store α) (a : SSARef) (index : Int) : Option (Store α) :=
  (removeArr (storeGet s a.cell) index).map (fun l => List.set s a.cell l)

end HeapModel

section CompareLemmas

variable {α : Type} [LinearOrder α] {v w : α}

theorem compareFunc_neg : compareFunc v w < 0 ↔ v < w := by
  unfold compareFunc
  split_ifs with h1 h2
  · simp [h1]
  · simp [h2, not_lt_of_lt h2]
  · simp [h1]

theorem compareFunc_pos : 0 < compareFunc v w ↔ w < v := by
  unfold compareFunc
  split_ifs with h1 h2
  · simp [not_lt_of_lt h1, h1]
  · simp [h2]
  · simp [h2]

theorem compareFunc_eq_zero : compareFunc v w = 0 ↔ v = w := by
  unfold compareFunc
  split_ifs with h1 h2
  · simp [ne_of_lt h1]
  · simp [(ne_of_lt h2).symm]
  · simp [le_antisymm (le_of_not_lt h2) (le_of_not_lt h1)]

theorem compareFunc_nonpos : compareFunc v w ≤ 0 ↔ v ≤ w := by
  rcases lt_trichotomy v w with h | h | h
  · simp [compareFunc_neg.mpr h |>.le, le_of_lt h]
  · subst h
    simp [compareFunc_eq_zero.mpr rfl]
  · constructor
    · intro hc
      rcases lt_or_eq_of_le hc with hc' | hc'
      · exact absurd (compareFunc_neg.mp hc') (not_lt_of_lt h)
      · exact absurd (compareFunc_eq_zero.mp hc') (ne_of_gt h)
    · intro hle
      exact absurd h (not_lt_of_le hle)

end CompareLemmas

section SearchSpec

variable {α : Type} [LinearOrder α] [Inhabited α]

/-- In a sorted list, `getD` is monotone over in-range indices. -/
theorem pairwise_le_getD {l : List α} (hs : l.Pairwise (· ≤ ·)) {i j : Nat}
    (hij : i ≤ j) (hj : j < l.length) :
    l.getD i default ≤ l.getD j default := by
  have hi : i < l.length := lt_of_le_of_lt hij hj
  rw [List.getD_eq_getElem l default hi, List.getD_eq_getElem l default hj]
  rcases lt_or_eq_of_le hij with h | h
  · exact List.pairwise_iff_getElem.mp hs i j hi hj h
  · subst h; exact le_refl _

theorem binSearchLoop_spec (arr : List α) (value : α) (hs : arr.Pairwise (· ≤ ·)) :
    ∀ (n : Nat) (mn mx mid cmp : Int),
      (mx + 1 - mn).toNat ≤ n →
      0 ≤ mn → mn ≤ mx → mx < (arr.length : Int) →
      (∀ i : Nat, (i : Int) < mn → arr.getD i default < value) →
      (∀ i : Nat, mx < (i : Int) → i < arr.length → value < arr.getD i default) →
      searchPost arr value (binSearchLoop arr value mn mx mid cmp) := by
  intro n
  induction n with
  | zero =>
    intro mn mx mid cmp hfuel hmn hmnmx hmx hlo hhi
    omega
  | succ n ih =>
    intro mn mx mid cmp hfuel hmn hmnmx hmx hlo hhi
    rw [binSearchLoop]
    rw [dif_pos hmnmx]
    set md : Int := (mn + mx) / 2 with hmd
    set c : Int := compareFunc value (arr.getD md.toNat default) with hc
    have hmdlo : mn ≤ md := by omega
    have hmdhi : md ≤ mx := by omega
    have hmdlen : md < (arr.length : Int) := lt_of_le_of_lt hmdhi hmx
    have hmd0 : 0 ≤ md := le_trans hmn hmdlo
    by_cases hneg : c < 0
    · rw [if_pos hneg]
      -- value is strictly below arr[md]
      have hvmd : value < arr.getD md.toNat default := compareFunc_neg.mp (hc ▸ hneg)
      have hhi' : ∀ i : Nat, md - 1 < (i : Int) → i < arr.length →
          value < arr.getD i default := by
        intro i h1 h2
        have hle : md.toNat ≤ i := by omega
        exact lt_of_lt_of_le hvmd (pairwise_le_getD hs hle h2)
      by_cases hrec : mn ≤ md - 1
      · exact ih mn (md - 1) md c (by omega) hmn hrec (by omega) hlo hhi'
      · -- the recursive call exits at once and returns (md, c)
        rw [binSearchLoop, dif_neg hrec]
        have hmneq : mn = md := by omega
        refine ⟨hmd0, hmdlen, hc, fun _ => ⟨?_, ?_⟩, fun hpos => absurd hpos (by omega)⟩
        · intro i hi
          exact hlo i (by omega)
        · intro i h1 h2
          exact hhi' i (by omega) h2
    · rw [if_neg hneg]
      by_cases hpos : 0 < c
      · rw [if_pos hpos]
        have hvmd : arr.getD md.toNat default < value := compareFunc_pos.mp (hc ▸ hpos)
        have hlo' : ∀ i : Nat, (i : Int) < md + 1 → arr.getD i default < value := by
          intro i h1
          have hle : i ≤ md.toNat := by omega
          have hilen : i < arr.length := by omega
          exact lt_of_le_of_lt (pairwise_le_getD hs (by omega) (by omega)) hvmd
        by_cases hrec : md + 1 ≤ mx
        · exact ih (md + 1) mx md c (by omega) (by omega) hrec hmx hlo' hhi
        · rw [binSearchLoop, dif_neg hrec]
          have hmxeq : mx = md := by omega
          refine ⟨hmd0, hmdlen, hc, fun hneg' => absurd hneg' (by omega), fun _ => ⟨?_, ?_⟩⟩
          · intro i hi
            exact hlo' i (by omega)
          · intro i h1 h2
            exact hhi i (by omega) h2
      · rw [if_neg hpos]
        exact ⟨hmd0, hmdlen, hc, fun hneg' => absurd hneg' hneg, fun hpos' => absurd hpos' hpos⟩

/-- `binSearch` satisfies `searchPost` on every sorted nonempty array. -/
theorem binSearch_spec (arr : List α) (value : α) (hs : arr.Pairwise (· ≤ ·))
    (hne : arr ≠ []) : searchPost arr value (binSearch arr value) := by
  have hlen : 0 < arr.length := List.length_pos.mpr hne
  rw [binSearch, if_neg (by omega)]
  exact binSearchLoop_spec arr value hs arr.length 0 ((arr.length : Int) - 1) 0 (-2)
    (by omega) (by omega) (by omega) (by omega)
    (fun i hi => absurd hi (by omega))
    (fun i h1 h2 => absurd h1 (by omega))

/-- On an empty array `binSearch` returns the `(-1, -2)` sentinel. -/
theorem binSearch_nil (value : α) : binSearch ([] : List α) value = (-1, -2) := rfl

/-- If the value occurs in the sorted array, `binSearch` finds an exact match. -/
theorem binSearch_mem {arr : List α} {value : α} (hs : arr.Pairwise (· ≤ ·))
    (hmem : value ∈ arr) :
    ∃ i : Nat, binSearch arr value = ((i : Int), 0) ∧ i < arr.length ∧
      arr.getD i default = value := by
  have hne : arr ≠ [] := List.ne_nil_of_mem hmem
  have hpost := binSearch_spec arr value hs hne
  obtain ⟨h0, h1, h2, h3, h4⟩ := hpost
  set p := binSearch arr value with hp
  rcases lt_trichotomy p.2 0 with hneg | hzero | hpos
  · -- impossible: every index would be a non-match
    exfalso
    obtain ⟨j, hj, hjv⟩ := List.mem_iff_getElem.mp hmem
    obtain ⟨hlo, hhi⟩ := h3 hneg
    have hjd : arr.getD j default = value := by
      rw [List.getD_eq_getElem arr default hj]; exact hjv
    by_cases hcase : (j : Int) < p.1
    · exact absurd (hlo j hcase) (by rw [hjd]; exact lt_irrefl value)
    · exact absurd (hhi j (by omega) hj) (by rw [hjd]; exact lt_irrefl value)
  · refine ⟨p.1.toNat, ?_, by omega, ?_⟩
    · have : p = (p.1, p.2) := rfl
      rw [this, hzero, Int.toNat_of_nonneg h0]
    · exact ((compareFunc_eq_zero).mp (hzero ▸ h2).symm).symm
  · exfalso
    obtain ⟨j, hj, hjv⟩ := List.mem_iff_getElem.mp hmem
    obtain ⟨hlo, hhi⟩ := h4 hpos
    have hjd : arr.getD j default = value := by
      rw [List.getD_eq_getElem arr default hj]; exact hjv
    by_cases hcase : (j : Int) ≤ p.1
    · exact absurd (hlo j hcase) (by rw [hjd]; exact lt_irrefl value)
    · exact absurd (hhi j (by omega) hj) (by rw [hjd]; exact lt_irrefl value)

/-- If the value does not occur in the sorted nonempty array, the comparison
result of `binSearch` is nonzero. -/
theorem binSearch_not_mem {arr : List α} {value : α} (hs : arr.Pairwise (· ≤ ·))
    (hne : arr ≠ []) (hnm : value ∉ arr) : (binSearch arr value).2 ≠ 0 := by
  intro hzero
  have hpost := binSearch_spec arr value hs hne
  obtain ⟨h0, h1, h2, _, _⟩ := hpost
  apply hnm
  have : value = arr.getD (binSearch arr value).1.toNat default :=
    compareFunc_eq_zero.mp (hzero ▸ h2).symm
  rw [this, List.getD_eq_getElem arr default (by omega)]
  exact List.getElem_mem _

/-- Elements of `arr.take p` are the `arr.getD i default` with `i < p` in range. -/
theorem mem_take_getD {arr : List α} {p : Nat} {x : α} (hx : x ∈ arr.take p) :
    ∃ i : Nat, i < p ∧ i < arr.length ∧ arr.getD i default = x := by
  obtain ⟨i, hi, hix⟩ := List.mem_iff_getElem.mp hx
  have hlen : i < p ∧ i < arr.length := by
    have := hi
    simp only [List.length_take] at this
    omega
  refine ⟨i, hlen.1, hlen.2, ?_⟩
  rw [List.getD_eq_getElem arr default hlen.2, ← List.getElem_take (h := hi)]
  exact hix

/-- Elements of `arr.drop p` are the `arr.getD i default` with `p ≤ i` in range. -/
theorem mem_drop_getD {arr : List α} {p : Nat} {y : α} (hy : y ∈ arr.drop p) :
    ∃ i : Nat, p ≤ i ∧ i < arr.length ∧ arr.getD i default = y := by
  obtain ⟨j, hj, hjy⟩ := List.mem_iff_getElem.mp hy
  have hlen : p + j < arr.length := by
    have := hj
    simp only [List.length_drop] at this
    omega
  refine ⟨p + j, by omega, hlen, ?_⟩
  rw [List.getD_eq_getElem arr default hlen, ← List.getElem_drop (h := hj)]
  exact hjy

/-- Inserting an element between a prefix that relates to it and a suffix it
relates to preserves `Pairwise`. -/
theorem pairwise_insert {r : α → α → Prop} {arr : List α} {v : α} {p : Nat}
    (h : arr.Pairwise r) (h1 : ∀ x ∈ arr.take p, r x v) (h2 : ∀ y ∈ arr.drop p, r v y) :
    (arr.take p ++ v :: arr.drop p).Pairwise r := by
  have hsplit : (arr.take p ++ arr.drop p).Pairwise r := by
    rw [List.take_append_drop]; exact h
  have hcross := (List.pairwise_append.mp hsplit).2.2
  rw [List.pairwise_append]
  refine ⟨h.sublist (List.take_sublist _ _), ?_, ?_⟩
  · rw [List.pairwise_cons]
    exact ⟨h2, h.sublist (List.drop_sublist _ _)⟩
  · intro x hx y hy
    rcases List.mem_cons.mp hy with rfl | hy'
    · exact h1 x hx
    · exact hcross x hx y hy'

theorem I1_iff_pairwise {l : List α} : I1 l ↔ l.Pairwise (· ≤ ·) := by
  constructor
  · intro h
    exact List.chain'_iff_pairwise.mp (h.imp (fun a b hc => compareFunc_nonpos.mp hc))
  · intro h
    exact (List.chain'_iff_pairwise.mpr h).imp (fun a b hc => compareFunc_nonpos.mpr hc)

theorem pairwise_lt_I2 {l : List α} (h : l.Pairwise (· < ·)) : I2 l :=
  h.chain'.imp (fun a b hc => compareFunc_eq_zero.not.mpr (ne_of_lt hc))

/-- `addOne` keeps the array sorted. -/
theorem addOne_pairwise (uniq : Bool) {arr : List α} (value : α)
    (hs : arr.Pairwise (· ≤ ·)) : (addOne uniq arr value).Pairwise (· ≤ ·) := by
  by_cases harr : arr = []
  · subst harr
    simp only [addOne, binSearch_nil]
    norm_num
  · obtain ⟨hp0, hp1, hp2, hp3, hp4⟩ := binSearch_spec arr value hs harr
    simp only [addOne]
    by_cases hskip : (uniq && (binSearch arr value).2 == 0) = true
    · rw [if_pos hskip]; exact hs
    · rw [if_neg hskip, if_neg (by omega)]
      rcases lt_trichotomy (binSearch arr value).2 0 with hc | hc | hc
      · rw [if_neg (by omega)]
        apply pairwise_insert hs
        · intro x hx
          obtain ⟨i, hip, hilen, hieq⟩ := mem_take_getD hx
          exact le_of_lt (hieq ▸ (hp3 hc).1 i (by omega))
        · intro y hy
          obtain ⟨i, hip, hilen, hieq⟩ := mem_drop_getD hy
          exact le_of_lt (hieq ▸ (hp3 hc).2 i (by omega) hilen)
      · rw [if_neg (by omega)]
        have hveq : value = arr.getD (binSearch arr value).1.toNat default :=
          compareFunc_eq_zero.mp (hc ▸ hp2).symm
        apply pairwise_insert hs
        · intro x hx
          obtain ⟨i, hip, hilen, hieq⟩ := mem_take_getD hx
          rw [← hieq, hveq]
          exact pairwise_le_getD hs (by omega) (by omega)
        · intro y hy
          obtain ⟨i, hip, hilen, hieq⟩ := mem_drop_getD hy
          rw [← hieq, hveq]
          exact pairwise_le_getD hs (by omega) hilen
      · rw [if_pos (by omega)]
        apply pairwise_insert hs
        · intro x hx
          obtain ⟨i, hip, hilen, hieq⟩ := mem_take_getD hx
          exact le_of_lt (hieq ▸ (hp4 hc).1 i (by omega))
        · intro y hy
          obtain ⟨i, hip, hilen, hieq⟩ := mem_drop_getD hy
          exact le_of_lt (hieq ▸ (hp4 hc).2 i (by omega) hilen)

/-- With the unique flag set, `addOne` keeps the array strictly sorted. -/
theorem addOne_pairwise_lt {arr : List α} (value : α)
    (hs : arr.Pairwise (· < ·)) : (addOne true arr value).Pairwise (· < ·) := by
  have hsle : arr.Pairwise (· ≤ ·) := hs.imp le_of_lt
  by_cases harr : arr = []
  · subst harr
    simp only [addOne, binSearch_nil]
    norm_num
  · obtain ⟨hp0, hp1, hp2, hp3, hp4⟩ := binSearch_spec arr value hsle harr
    simp only [addOne]
    by_cases hskip : (true && (binSearch arr value).2 == 0) = true
    · rw [if_pos hskip]; exact hs
    · have hcne : (binSearch arr value).2 ≠ 0 := by
        intro h0
        apply hskip
        rw [h0]
        rfl
      rw [if_neg hskip, if_neg (by omega)]
      rcases lt_trichotomy (binSearch arr value).2 0 with hc | hc | hc
      · rw [if_neg (by omega)]
        apply pairwise_insert hs
        · intro x hx
          obtain ⟨i, hip, hilen, hieq⟩ := mem_take_getD hx
          exact hieq ▸ (hp3 hc).1 i (by omega)
        · intro y hy
          obtain ⟨i, hip, hilen, hieq⟩ := mem_drop_getD hy
          exact hieq ▸ (hp3 hc).2 i (by omega) hilen
      · exact absurd hc hcne
      · rw [if_pos (by omega)]
        apply pairwise_insert hs
        · intro x hx
          obtain ⟨i, hip, hilen, hieq⟩ := mem_take_getD hx
          exact hieq ▸ (hp4 hc).1 i (by omega)
        · intro y hy
          obtain ⟨i, hip, hilen, hieq⟩ := mem_drop_getD hy
          exact hieq ▸ (hp4 hc).2 i (by omega) hilen

/-- With the unique flag set, adding a value already present is a no-op. -/
theorem addOne_unique_mem {arr : List α} {value : α} (hs : arr.Pairwise (· ≤ ·))
    (hmem : value ∈ arr) : addOne true arr value = arr := by
  obtain ⟨i, hfind, hlen, hval⟩ := binSearch_mem hs hmem
  simp only [addOne, hfind]
  rfl

/-- `addAll` keeps the array sorted. -/
theorem addAll_pairwise (uniq : Bool) {arr : List α} (values : List α)
    (hs : arr.Pairwise (· ≤ ·)) : (addAll uniq arr values).Pairwise (· ≤ ·) := by
  induction values generalizing arr with
  | nil => exact hs
  | cons v vs ih => exact ih (addOne_pairwise uniq v hs)

/-- With the unique flag set, `addAll` keeps the array strictly sorted. -/
theorem addAll_pairwise_lt {arr : List α} (values : List α)
    (hs : arr.Pairwise (· < ·)) : (addAll true arr values).Pairwise (· < ·) := by
  induction values generalizing arr with
  | nil => exact hs
  | cons v vs ih => exact ih (addOne_pairwise_lt v hs)

/-- Any fold of `Add` calls from a sorted state keeps the array sorted. -/
theorem foldl_Add_pairwise {a : SortedStringArray α} (calls : List (List α))
    (hs : a.array.Pairwise (· ≤ ·)) :
    ((calls.foldl SortedStringArray.Add a).array).Pairwise (· ≤ ·) := by
  induction calls generalizing a with
  | nil => exact hs
  | cons c cs ih => exact ih (addAll_pairwise a.unique c hs)

/-- A fold of `Add` calls never changes the unique flag. -/
theorem foldl_Add_unique {a : SortedStringArray α} (calls : List (List α)) :
    (calls.foldl SortedStringArray.Add a).unique = a.unique := by
  induction calls generalizing a with
  | nil => rfl
  | cons c cs ih => exact ih

/-- With the unique flag set, a fold of `Add` calls keeps the array strictly
sorted. -/
theorem foldl_Add_pairwise_lt {a : SortedStringArray α} (calls : List (List α))
    (hu : a.unique = true) (hs : a.array.Pairwise (· < ·)) :
    ((calls.foldl SortedStringArray.Add a).array).Pairwise (· < ·) := by
  induction calls generalizing a with
  | nil => exact hs
  | cons c cs ih =>
    apply ih (a := a.Add c) hu
    show (addAll a.unique a.array c).Pairwise (· < ·)
    rw [hu]
    exact addAll_pairwise_lt c hs

end SearchSpec

section ClaimsBasic

/-- C1, counterexample: cloning a `Safe` sequence does NOT yield an `Unsafe`
clone — for the safe instance with an empty array, the clone's mode is still
safe.  (`Clone` passes `!a.mu.IsSafe()` as the constructor's `unsafe`
argument, which preserves the mode rather than inverting it.) -/
theorem clone_of_safe_is_not_unsafe :
    ¬ (Clone (⟨true, [], false⟩ : SortedStringArray String)).safe = false := by
  decide

/-- C1, amended: `clone()` preserves the synchronization mode of the source:
the clone of a `Safe` sequence is `Safe` and the clone of an `Unsafe` sequence
is `Unsafe`. -/
theorem clone_preserves_mode (a : SortedStringArray String) :
    (Clone a).safe = a.safe ∧ IsSafe (Clone a) = IsSafe a := by
  constructor
  · simp [Clone, NewSortedStringArrayFrom, NewSortedStringArraySize, IsSafe]
  · simp [Clone, NewSortedStringArrayFrom, NewSortedStringArraySize, IsSafe]

/-- C2: on the sequence `["a","b","c"]`, `subSlice(0, 1)` returns all three
elements in `Unsafe` mode (the unsafe branch returns the whole aliased tail
`array[offset:]`, ignoring the clamped `size`), while `Safe` mode returns the
single requested element. -/
theorem subSlice_unsafe_ignores_size :
    SubSlice (⟨false, ["a", "b", "c"], false⟩ : SortedStringArray String) 0 1 =
      some ["a", "b", "c"] ∧
    SubSlice (⟨true, ["a", "b", "c"], false⟩ : SortedStringArray String) 0 1 =
      some ["a"] := by
  exact ⟨rfl, rfl⟩

/-- C3: starting from a freshly constructed (empty) `SortedStringArray`, after
any finite sequence of `add` calls the backing array satisfies invariant I1
under the default comparator.  (Every prefix of `calls` is itself such a
sequence, so this covers the state after each call.) -/
theorem add_calls_keep_I1 (unsafeFlag : Bool) (calls : List (List String)) :
    I1 ((calls.foldl SortedStringArray.Add (NewSortedStringArray unsafeFlag)).array) := by
  apply I1_iff_pairwise.mpr
  exact foldl_Add_pairwise calls List.Pairwise.nil

/-- C4: on a sorted sequence, `search(v)` returns `(i, 0)` with `S[i] = v`
when `v` is present; a nonzero comparison result when `v` is absent from a
nonempty sequence; and the sentinel `(-1, -2)` on an empty sequence. -/
theorem search_spec (a : SortedStringArray String) (v : String) (hs : I1 a.array) :
    (a.array = [] → Search a v = (-1, -2)) ∧
    (v ∈ a.array → ∃ i : Nat, Search a v = ((i : Int), 0) ∧ i < a.array.length ∧
      a.array.getD i default = v) ∧
    (a.array ≠ [] → v ∉ a.array → (Search a v).2 ≠ 0) := by
  have hp := I1_iff_pairwise.mp hs
  refine ⟨?_, ?_, ?_⟩
  · intro h
    rw [Search, h]
    exact binSearch_nil v
  · intro hmem
    exact binSearch_mem hp hmem
  · intro hne hnm
    exact binSearch_not_mem hp hne hnm

/-- Witness for C4 at the sorted sequence `["a", "b"]` and the present value
`"b"`. -/
theorem search_spec_witness :
    I1 ((⟨true, ["a", "b"], false⟩ : SortedStringArray String).array) ∧
    ((∃ i : Nat,
        Search (⟨true, ["a", "b"], false⟩ : SortedStringArray String) "b" =
          ((i : Int), 0) ∧
        i < (⟨true, ["a", "b"], false⟩ : SortedStringArray String).array.length ∧
        (⟨true, ["a", "b"], false⟩ :
          SortedStringArray String).array.getD i default = "b")) := by
  have hs : I1 ((⟨true, ["a", "b"], false⟩ : SortedStringArray String).array) := by
    simp [I1, compareFunc]
    decide
  refine ⟨hs, ?_⟩
  exact (search_spec ⟨true, ["a", "b"], false⟩ "b" hs).2.1 (by simp)

/-- C6: `unique()` does not terminate normally on the empty sequence: the loop
guard compares `i = 0` with `len-1 = -1`, so the first iteration reads
`array[0]` and `array[1]` out of range (a Go panic, modelled as `none`); the
`unique()` pass triggered by `setUnique(true)` on an empty sequence hits the
same panic. -/
theorem unique_empty_panics :
    SortedStringArray.Unique (⟨true, [], false⟩ : SortedStringArray String) = none ∧
    SetUnique (⟨true, [], false⟩ : SortedStringArray String) true = none := by
  constructor
  · rw [SortedStringArray.Unique, uniqueLoop]
    norm_num
  · rw [SetUnique]
    norm_num
    rw [SortedStringArray.Unique, uniqueLoop]
    norm_num

end ClaimsBasic

section ClaimsUniqueMerge

/-- C7: with the unique flag set, after any finite sequence of `add` calls no
two adjacent elements compare equal (invariant I2), and adding a value already
present leaves the length unchanged (the value is skipped, no error). -/
theorem unique_add_spec (unsafeFlag : Bool) (calls : List (List String)) (v : String) :
    I2 ((calls.foldl SortedStringArray.Add
      ({ NewSortedStringArray unsafeFlag with unique := true } :
        SortedStringArray String)).array) ∧
    (v ∈ (calls.foldl SortedStringArray.Add
        ({ NewSortedStringArray unsafeFlag with unique := true } :
          SortedStringArray String)).array →
      ((calls.foldl SortedStringArray.Add
        ({ NewSortedStringArray unsafeFlag with unique := true } :
          SortedStringArray String)).Add [v]).array.length =
      (calls.foldl SortedStringArray.Add
        ({ NewSortedStringArray unsafeFlag with unique := true } :
          SortedStringArray String)).array.length) := by
  set a0 : SortedStringArray String :=
    { NewSortedStringArray unsafeFlag with unique := true } with ha0
  set a : SortedStringArray String := calls.foldl SortedStringArray.Add a0 with ha
  have hu : a.unique = true := foldl_Add_unique calls
  have hlt : a.array.Pairwise (· < ·) := foldl_Add_pairwise_lt calls rfl List.Pairwise.nil
  refine ⟨pairwise_lt_I2 hlt, fun hmem => ?_⟩
  show (addAll a.unique a.array [v]).length = a.array.length
  rw [hu]
  show (addOne true a.array v).length = a.array.length
  rw [addOne_unique_mem (hlt.imp (fun h => le_of_lt h)) hmem]

/-- Witness for C7: one `add` of `"a"` on a fresh unique sequence, then adding
the already-present `"a"` again. -/
theorem unique_add_spec_witness :
    "a" ∈ (([["a"]] : List (List String)).foldl SortedStringArray.Add
      ({ NewSortedStringArray false with unique := true } :
        SortedStringArray String)).array ∧
    ((([["a"]] : List (List String)).foldl SortedStringArray.Add
      ({ NewSortedStringArray false with unique := true } :
        SortedStringArray String)).Add ["a"]).array.length =
    (([["a"]] : List (List String)).foldl SortedStringArray.Add
      ({ NewSortedStringArray false with unique := true } :
        SortedStringArray String)).array.length := by
  have hmem : "a" ∈ (([["a"]] : List (List String)).foldl SortedStringArray.Add
      ({ NewSortedStringArray false with unique := true } :
        SortedStringArray String)).array := by
    simp [SortedStringArray.Add, addAll, addOne, binSearch,
      NewSortedStringArray, NewSortedStringArraySize]
  exact ⟨hmem, (unique_add_spec false [["a"]] "a").2 hmem⟩

/-- C8: `merge` of sequences of lengths n and m yields length n+m, satisfies
I1, and holds exactly the multiset union of the inputs; merging an instance
with itself doubles it. -/
theorem merge_spec (a b : SortedStringArray String) :
    (Merge a b).array.length = a.array.length + b.array.length ∧
    I1 (Merge a b).array ∧
    (Merge a b).array.Perm (a.array ++ b.array) ∧
    (Merge a a).array.length = 2 * a.array.length := by
  have hperm : ∀ x y : SortedStringArray String, (Merge x y).array.Perm (x.array ++ y.array) :=
    fun x y => List.perm_insertionSort _ _
  refine ⟨?_, ?_, hperm a b, ?_⟩
  · rw [(hperm a b).length_eq, List.length_append]
  · apply I1_iff_pairwise.mpr
    exact List.sorted_insertionSort _ _
  · rw [(hperm a a).length_eq, List.length_append]
    omega

end ClaimsUniqueMerge

section RandSpec

variable {α : Type} [LinearOrder α] [Inhabited α]

/-- The `Rand` loop fills slots `i, i+1, ...` of `n` with `array[perm[0]],
array[perm[1]], ...` and stops right after writing the last slot. -/
theorem randLoop_spec (arr : List α) :
    ∀ (perm : List Nat) (n : List α) (i : Nat),
      (∀ v ∈ perm, v < arr.length) → i < n.length → n.length ≤ i + perm.length →
      randLoop arr perm n i (n.length : Int) =
        some (n.take i ++ (perm.take (n.length - i)).map (fun v => arr.getD v default)) := by
  intro perm
  induction perm with
  | nil =>
    intro n i hv hi hlen
    simp only [List.length_nil] at hlen
    omega
  | cons v rest ih =>
    intro n i hv hi hlen
    have hvlen : v < arr.length := hv v (List.mem_cons_self v rest)
    simp only [randLoop, dif_pos hvlen, dif_pos hi]
    have hset : n.set i (arr.getD v default) =
        n.take i ++ arr.getD v default :: n.drop (i + 1) :=
      List.set_eq_take_cons_drop _ hi
    by_cases hlast : (i : Int) = (n.length : Int) - 1
    · rw [if_pos hlast]
      have hi1 : i + 1 = n.length := by omega
      have hdrop : n.drop (i + 1) = [] := List.drop_eq_nil_of_le (by omega)
      have htake : n.length - i = 1 := by omega
      rw [hset, hdrop, htake]
      simp
    · rw [if_neg hlast]
      have hi1 : i + 1 < n.length := by omega
      have hlen2 : (n.set i (arr.getD v default)).length = n.length := List.length_set n i _
      have := ih (n.set i (arr.getD v default)) (i + 1)
        (fun w hw => hv w (List.mem_cons_of_mem v hw))
        (by omega) (by simp only [hlen2, List.length_cons] at *; omega)
      rw [hlen2] at this
      rw [this]
      congr 1
      have htk : (n.set i (arr.getD v default)).take (i + 1) =
          n.take i ++ [arr.getD v default] := by
        rw [hset, List.take_append_eq_append_take]
        have hlt : (n.take i).length = i := by
          simp only [List.length_take]
          omega
        rw [List.take_of_length_le (by omega), hlt]
        have : i + 1 - i = 1 := by omega
        rw [this]
        rfl
      rw [htk]
      have hsub : n.length - i = (n.length - (i + 1)) + 1 := by omega
      rw [hsub, List.take_succ_cons, List.map_cons, List.append_assoc]
      rfl

end RandSpec

section ClaimRand

/-- C5, counterexample: `rand(0)` on the nonempty sequence `["a"]` does not
terminate normally: the loop writes `n[0]` into the zero-length result slice
before checking the stop condition, an index-out-of-range panic (modelled as
`none`).  (`[0]` is the only permutation of the single index.) -/
theorem rand_zero_size_panics :
    SortedStringArray.Rand (⟨true, ["a"], false⟩ : SortedStringArray String) [0] 0 =
      none := by
  rfl

/-- C5, amended: for every `size ≥ 1`, `rand(size)` terminates normally and
returns exactly `min(size, len())` elements, drawn from pairwise-distinct
indices of the sequence (it walks a random permutation of the indices, clamping
`size` to `len()`).  For `size = 0` it only terminates normally on an empty
sequence. -/
theorem rand_spec (a : SortedStringArray String) (perm : List Nat) (size : Int)
    (hperm : perm.Perm (List.range a.array.length)) (hsize : 1 ≤ size) :
    ∃ idxs : List Nat,
      SortedStringArray.Rand a perm size =
        some (idxs.map (fun i => a.array.getD i default)) ∧
      idxs.length = min size.toNat a.array.length ∧ idxs.Nodup ∧
      ∀ i ∈ idxs, i < a.array.length := by
  have hplen : perm.length = a.array.length := by
    rw [hperm.length_eq, List.length_range]
  by_cases hzero : a.array.length = 0
  · have hpnil : perm = [] := by
      apply List.eq_nil_of_length_eq_zero
      omega
    refine ⟨[], ?_, ?_, List.nodup_nil, by simp⟩
    · simp only [SortedStringArray.Rand, hpnil, hzero, Nat.cast_zero]
      rw [if_pos (show size > (0 : Int) by omega), if_pos (le_refl (0 : Int))]
      simp [randLoop]
    · simp only [List.length_nil, hzero]
      omega
  · set size2 : Int := if size > (a.array.length : Int) then (a.array.length : Int) else size
      with hs2
    have h1 : 1 ≤ size2 := by
      rw [hs2]
      split <;> omega
    have h2 : size2 ≤ (a.array.length : Int) := by
      rw [hs2]
      split <;> omega
    have h3 : size2.toNat = min size.toNat a.array.length := by
      rw [hs2]
      split <;> omega
    refine ⟨perm.take size2.toNat, ?_, ?_, ?_, ?_⟩
    · have hrepl : (List.replicate size2.toNat (default : String)).length = size2.toNat :=
        List.length_replicate _ _
      have key := randLoop_spec a.array perm (List.replicate size2.toNat default) 0
        (fun w hw => by
          have hw2 : w ∈ List.range a.array.length := hperm.mem_iff.mp hw
          exact List.mem_range.mp hw2)
        (by omega) (by omega)
      rw [hrepl] at key
      rw [show ((size2.toNat : Nat) : Int) = size2 by omega] at key
      simp only [List.take_zero, List.nil_append, Nat.sub_zero] at key
      simp only [SortedStringArray.Rand, ← hs2]
      rw [if_pos (show (0 : Int) ≤ size2 by omega)]
      exact key
    · rw [List.length_take, hplen, h3]
      omega
    · have hnd : perm.Nodup := hperm.nodup_iff.mpr (List.nodup_range _)
      exact hnd.sublist (List.take_sublist _ _)
    · intro i hi
      have : i ∈ List.range a.array.length := hperm.mem_iff.mp (List.mem_of_mem_take hi)
      exact List.mem_range.mp this

/-- Witness for C5 (amended) on the sequence `["a", "b"]` with the permutation
`[1, 0]` and an oversized `size = 5`. -/
theorem rand_spec_witness :
    ([1, 0] : List Nat).Perm (List.range 2) ∧ (1 : Int) ≤ 5 ∧
    (∃ idxs : List Nat,
      SortedStringArray.Rand (⟨true, ["a", "b"], false⟩ : SortedStringArray String)
          [1, 0] 5 =
        some (idxs.map (fun i =>
          (⟨true, ["a", "b"], false⟩ :
            SortedStringArray String).array.getD i default)) ∧
      idxs.length = min (5 : Int).toNat
        (⟨true, ["a", "b"], false⟩ : SortedStringArray String).array.length ∧
      idxs.Nodup ∧
      ∀ i ∈ idxs, i <
        (⟨true, ["a", "b"], false⟩ : SortedStringArray String).array.length) := by
  refine ⟨by decide, by decide, ?_⟩
  exact rand_spec ⟨true, ["a", "b"], false⟩ [1, 0] 5 (by decide) (by decide)

end ClaimRand

section ChunkSpec

variable {α : Type} [LinearOrder α] [Inhabited α]

/-- The slice emitted at iteration `i` of `Chunk`'s loop is the `i`-th group of
`k` consecutive elements (list `take`/`drop` clamp exactly where the code
clamps `end` to the length). -/
theorem chunkLoop_entry (arr : List α) (k i : Nat) :
    (arr.take (min ((i + 1) * k) arr.length)).drop (i * k) = (arr.drop (i * k)).take k := by
  rw [List.drop_take]
  rw [show (i + 1) * k = i * k + k by ring]
  rw [List.take_eq_take]
  simp only [List.length_drop]
  generalize i * k = A
  omega

theorem chunkLoop_length (arr : List α) (k : Nat) :
    ∀ (c i : Nat), (chunkLoop arr k c i).length = c := by
  intro c
  induction c with
  | zero => intro i; rfl
  | succ c ih => intro i; simp [chunkLoop, ih]

theorem chunkLoop_flatten (arr : List α) (k : Nat) :
    ∀ (c i : Nat), (chunkLoop arr k c i).flatten = (arr.drop (i * k)).take (c * k) := by
  intro c
  induction c with
  | zero => intro i; simp [chunkLoop]
  | succ c ih =>
    intro i
    simp only [chunkLoop, List.flatten_cons, chunkLoop_entry, ih]
    rw [show (i + 1) * k = i * k + k by ring, ← List.drop_drop]
    rw [show (c + 1) * k = k + c * k by ring, List.take_add]

/-- Every group before the last one is full (`k` elements), provided every
non-final iteration still has `k` elements available. -/
theorem chunkLoop_dropLast_length (arr : List α) (k : Nat) :
    ∀ (c i : Nat), (∀ j : Nat, i ≤ j → j + 1 < i + c → (j + 1) * k ≤ arr.length) →
      ∀ g ∈ (chunkLoop arr k c i).dropLast, g.length = k := by
  intro c
  induction c with
  | zero =>
    intro i hfull g hg
    simp [chunkLoop] at hg
  | succ c ih =>
    intro i hfull g hg
    match c, hg with
    | 0, hg => simp [chunkLoop] at hg
    | c' + 1, hg =>
      have hrest : chunkLoop arr k (c' + 1) (i + 1) ≠ [] := by
        intro hnil
        have := chunkLoop_length arr k (c' + 1) (i + 1)
        rw [hnil] at this
        simp at this
      rw [show chunkLoop arr k (c' + 1 + 1) i =
          ((arr.take (min ((i + 1) * k) arr.length)).drop (i * k)) ::
            chunkLoop arr k (c' + 1) (i + 1) from rfl] at hg
      rw [List.dropLast_cons_of_ne_nil hrest] at hg
      rcases List.mem_cons.mp hg with rfl | hg'
      · rw [chunkLoop_entry, List.length_take, List.length_drop]
        have h1 : (i + 1) * k ≤ arr.length := hfull i (le_refl i) (by omega)
        rw [show (i + 1) * k = i * k + k by ring] at h1
        generalize i * k = A at h1 ⊢
        omega
      · exact ih (i + 1) (fun j h0 h1 => hfull j (by omega) (by omega)) g hg'

/-- Every emitted group is nonempty and holds at most `k` elements, provided
every iteration starts strictly inside the array. -/
theorem chunkLoop_mem_length (arr : List α) (k : Nat) (hk : 0 < k) :
    ∀ (c i : Nat), (∀ j : Nat, i ≤ j → j < i + c → j * k < arr.length) →
      ∀ g ∈ chunkLoop arr k c i, 0 < g.length ∧ g.length ≤ k := by
  intro c
  induction c with
  | zero =>
    intro i hin g hg
    simp [chunkLoop] at hg
  | succ c ih =>
    intro i hin g hg
    rw [show chunkLoop arr k (c + 1) i =
        ((arr.take (min ((i + 1) * k) arr.length)).drop (i * k)) ::
          chunkLoop arr k c (i + 1) from rfl] at hg
    rcases List.mem_cons.mp hg with rfl | hg'
    · rw [chunkLoop_entry, List.length_take, List.length_drop]
      have h1 : i * k < arr.length := hin i (le_refl i) (by omega)
      generalize i * k = A at h1 ⊢
      omega
    · exact ih (i + 1) (fun j h0 h1 => hin j (by omega) (by omega)) g hg'

/-- `n ≤ ceil(n/k) * k`. -/
theorem ceil_mul_ge (n k : Nat) (hk : 0 < k) : n ≤ ((n + k - 1) / k) * k := by
  have hdm := Nat.div_add_mod (n + k - 1) k
  have hmod : (n + k - 1) % k < k := Nat.mod_lt _ hk
  rw [Nat.mul_comm]
  generalize hq : (n + k - 1) / k = q at hdm
  generalize hr : (n + k - 1) % k = r at hdm hmod
  generalize hA : k * q = A at hdm ⊢
  omega

/-- `(ceil(n/k) - 1) * k < n` whenever the ceiling is positive. -/
theorem ceil_pred_mul_lt (n k : Nat) (hk : 0 < k) (hpos : 0 < (n + k - 1) / k) :
    ((n + k - 1) / k - 1) * k < n := by
  rcases Nat.eq_zero_or_pos n with hn | hn
  · exfalso
    have hz : (n + k - 1) / k = 0 := by
      subst hn
      exact Nat.div_eq_of_lt (by omega)
    omega
  · have hdm := Nat.div_add_mod (n + k - 1) k
    have hmod : (n + k - 1) % k < k := Nat.mod_lt _ hk
    rw [Nat.sub_mul, Nat.one_mul, Nat.mul_comm]
    generalize hq : (n + k - 1) / k = q at hdm hpos
    generalize hr : (n + k - 1) % k = r at hdm hmod
    generalize hA : k * q = A at hdm ⊢
    omega

end ChunkSpec

section ClaimChunk

/-- C9: `chunk(size)` panics (`none`) exactly when `size < 1`; for `size ≥ 1`
it partitions the sequence into `ceil(len/size)` consecutive groups whose
concatenation is the original sequence, each group of exactly `size` elements
except a possibly-smaller (but nonempty) last group; on
`["a","b","c","d","e"]`, `chunk(2)` yields `[["a","b"],["c","d"],["e"]]`. -/
theorem chunk_spec :
    (∀ (a : SortedStringArray String) (size : Int), size < 1 → Chunk a size = none) ∧
    (∀ (a : SortedStringArray String) (size : Int), 1 ≤ size →
      ∃ gs : List (List String), Chunk a size = some gs ∧
        gs.length = (a.array.length + size.toNat - 1) / size.toNat ∧
        gs.flatten = a.array ∧
        (∀ g ∈ gs.dropLast, g.length = size.toNat) ∧
        (∀ g ∈ gs, 0 < g.length ∧ g.length ≤ size.toNat)) ∧
    Chunk (⟨true, ["a", "b", "c", "d", "e"], false⟩ : SortedStringArray String) 2 =
      some [["a", "b"], ["c", "d"], ["e"]] := by
  refine ⟨?_, ?_, by rfl⟩
  · intro a size h
    rw [Chunk, if_pos h]
  · intro a size h
    have hk1 : 0 < size.toNat := by omega
    refine ⟨chunkLoop a.array size.toNat
      ((a.array.length + size.toNat - 1) / size.toNat) 0, ?_, ?_, ?_, ?_, ?_⟩
    · rw [Chunk, if_neg (by omega)]
    · exact chunkLoop_length a.array size.toNat _ 0
    · rw [chunkLoop_flatten, Nat.zero_mul, List.drop_zero]
      exact List.take_of_length_le (ceil_mul_ge a.array.length size.toNat hk1)
    · apply chunkLoop_dropLast_length
      intro j h0 h1
      have hle : j + 1 ≤ (a.array.length + size.toNat - 1) / size.toNat - 1 := by omega
      have := Nat.mul_le_mul_right size.toNat hle
      have hlt := ceil_pred_mul_lt a.array.length size.toNat hk1 (by omega)
      omega
    · apply chunkLoop_mem_length a.array size.toNat hk1
      intro j h0 h1
      have hle : j ≤ (a.array.length + size.toNat - 1) / size.toNat - 1 := by omega
      have := Nat.mul_le_mul_right size.toNat hle
      have hlt := ceil_pred_mul_lt a.array.length size.toNat hk1 (by omega)
      omega

/-- Witness for C9: `chunk(0)` on `["a"]` is the panic case, `chunk(1)` the
regular case. -/
theorem chunk_spec_witness :
    Chunk (⟨true, ["a"], false⟩ : SortedStringArray String) 0 = none ∧
    (∃ gs : List (List String),
      Chunk (⟨true, ["a"], false⟩ : SortedStringArray String) 1 = some gs ∧
      gs.length = ((⟨true, ["a"], false⟩ : SortedStringArray String).array.length +
        (1 : Int).toNat - 1) / (1 : Int).toNat ∧
      gs.flatten = (⟨true, ["a"], false⟩ : SortedStringArray String).array ∧
      (∀ g ∈ gs.dropLast, g.length = (1 : Int).toNat) ∧
      (∀ g ∈ gs, 0 < g.length ∧ g.length ≤ (1 : Int).toNat)) :=
  ⟨chunk_spec.1 _ 0 (by decide), chunk_spec.2.1 _ 1 (by decide)⟩

end ClaimChunk

section HeapLemmas

variable {α : Type} [LinearOrder α] [Inhabited α]

/-- Mutating one cell leaves every other cell unchanged. -/
theorem storeGet_set_ne (s : Store α) {c c' : Nat} (l : List α) (h : c ≠ c') :
    storeGet (List.set s c l) c' = storeGet s c' := by
  rw [storeGet, storeGet, List.getD_eq_getElem?_getD, List.getD_eq_getElem?_getD,
    List.getElem?_set_ne h]

/-- The freshly allocated cell of a clone holds the copied contents. -/
theorem storeGet_append_self (s : Store α) (l : List α) :
    storeGet (s ++ [l]) s.length = l := by
  rw [storeGet, List.getD_append_right _ _ _ _ (le_refl _), Nat.sub_self]
  rfl

/-- Allocation does not disturb existing cells. -/
theorem storeGet_append_lt (s : Store α) (l : List α) {c : Nat} (h : c < s.length) :
    storeGet (s ++ [l]) c = storeGet s c := by
  rw [storeGet, storeGet, List.getD_append _ _ _ _ h]

end HeapLemmas

section ClaimClone

/-- C10: `clone()` is a deep copy in both concurrency modes: the clone lives in
a freshly allocated cell whose contents equal the source's contents at the
moment of cloning, and each mutating operation (`add`, `remove`, `clear`,
`setArray`) applied to either instance leaves the other instance's elements
untouched. -/
theorem clone_deep_copy (s : Store String) (a : SSARef)
    (hcell : a.cell < s.length) (hs : (storeGet s a.cell).Pairwise (· ≤ ·)) :
    storeGet (CloneM s a).1 (CloneM s a).2.cell = storeGet (CloneM s a).1 a.cell ∧
    (CloneM s a).2.cell ≠ a.cell ∧
    (∀ values, storeGet (AddM (CloneM s a).1 (CloneM s a).2 values) a.cell =
      storeGet (CloneM s a).1 a.cell) ∧
    (∀ values, storeGet (SetArrayM (CloneM s a).1 (CloneM s a).2 values) a.cell =
      storeGet (CloneM s a).1 a.cell) ∧
    (storeGet (ClearM (CloneM s a).1 (CloneM s a).2) a.cell =
      storeGet (CloneM s a).1 a.cell) ∧
    (∀ (index : Int) (s2 : Store String),
      RemoveM (CloneM s a).1 (CloneM s a).2 index = some s2 →
      storeGet s2 a.cell = storeGet (CloneM s a).1 a.cell) ∧
    (∀ values, storeGet (AddM (CloneM s a).1 a values) (CloneM s a).2.cell =
      storeGet (CloneM s a).1 (CloneM s a).2.cell) ∧
    (∀ values, storeGet (SetArrayM (CloneM s a).1 a values) (CloneM s a).2.cell =
      storeGet (CloneM s a).1 (CloneM s a).2.cell) ∧
    (storeGet (ClearM (CloneM s a).1 a) (CloneM s a).2.cell =
      storeGet (CloneM s a).1 (CloneM s a).2.cell) ∧
    (∀ (index : Int) (s2 : Store String),
      RemoveM (CloneM s a).1 a index = some s2 →
      storeGet s2 (CloneM s a).2.cell = storeGet (CloneM s a).1 (CloneM s a).2.cell) := by
  have hccell : (CloneM s a).2.cell = s.length := rfl
  have hne : (CloneM s a).2.cell ≠ a.cell := by
    rw [hccell]
    omega
  have hne' : a.cell ≠ (CloneM s a).2.cell := fun h => hne h.symm
  refine ⟨?_, hne, ?_, ?_, ?_, ?_, ?_, ?_, ?_, ?_⟩
  · show storeGet (s ++ [sortList (storeGet s a.cell)]) s.length =
      storeGet (s ++ [sortList (storeGet s a.cell)]) a.cell
    rw [storeGet_append_self, storeGet_append_lt s _ hcell]
    exact List.Sorted.insertionSort_eq hs
  · intro values
    exact storeGet_set_ne _ _ hne
  · intro values
    exact storeGet_set_ne _ _ hne
  · exact storeGet_set_ne _ _ hne
  · intro index s2 hrem
    obtain ⟨l, _, rfl⟩ := Option.map_eq_some'.mp hrem
    exact storeGet_set_ne _ _ hne
  · intro values
    exact storeGet_set_ne _ _ hne'
  · intro values
    exact storeGet_set_ne _ _ hne'
  · exact storeGet_set_ne _ _ hne'
  · intro index s2 hrem
    obtain ⟨l, _, rfl⟩ := Option.map_eq_some'.mp hrem
    exact storeGet_set_ne _ _ hne'

/-- Witness for C10 on the one-cell store holding the sorted `["a"]`. -/
theorem clone_deep_copy_witness :
    ((⟨true, false, 0⟩ : SSARef).cell < ([["a"]] : Store String).length) ∧
    ((storeGet ([["a"]] : Store String)
      (⟨true, false, 0⟩ : SSARef).cell).Pairwise (· ≤ ·)) ∧
    (storeGet (CloneM ([["a"]] : Store String) ⟨true, false, 0⟩).1
        (CloneM ([["a"]] : Store String) ⟨true, false, 0⟩).2.cell =
      storeGet (CloneM ([["a"]] : Store String) ⟨true, false, 0⟩).1
        (⟨true, false, 0⟩ : SSARef).cell) ∧
    (storeGet (ClearM (CloneM ([["a"]] : Store String) ⟨true, false, 0⟩).1
        (CloneM ([["a"]] : Store String) ⟨true, false, 0⟩).2)
        (⟨true, false, 0⟩ : SSARef).cell =
      storeGet (CloneM ([["a"]] : Store String) ⟨true, false, 0⟩).1
        (⟨true, false, 0⟩ : SSARef).cell) := by
  have h1 : (⟨true, false, 0⟩ : SSARef).cell < ([["a"]] : Store String).length := by
    decide
  have h2 : (storeGet ([["a"]] : Store String)
      (⟨true, false, 0⟩ : SSARef).cell).Pairwise (· ≤ ·) := by
    simp [storeGet]
  have h := clone_deep_copy ([["a"]] : Store String) ⟨true, false, 0⟩ h1 h2
  exact ⟨h1, h2, h.1, h.2.2.2.2.1⟩

end ClaimClone
